import Mathlib

/-!
Verification development for the far-right-tracker-europe frontend.

The temporal aggregation and series-reconciliation engine of the repository
is shallowly embedded here:

* `getSupportAtDate` — `src/frontend/components/MapWithTimeline.tsx`
  (point-in-time aggregation over per-party observation series);
* `filterByRange`, `calculateRollingAverage` and the stacked-mode alignment
  (`buildAvgMap`, `allDates`, `partyDates`, `findPrevVal`, `findNextVal`,
  `alignPoint`, `alignedDataFor`, `alignParty`, `stackedAligned`,
  `stackedMode`) — `src/frontend/components/TimeSeriesChart.tsx`;
* `handlePlayPause`, `tick`, `stepMs` — the timeline controller of
  `src/frontend/components/MapWithTimeline.tsx`;
* `loadAllCountriesData` — `src/frontend/app/page.tsx`.

Calendar dates are modelled as natural numbers (ISO date strings compare
lexicographically exactly as their numeric encodings compare; JavaScript
`Date` comparisons are numeric on milliseconds).  Poll values are modelled
as exact rationals.  JavaScript `Map` objects that are only read through
`has`/`get` are modelled as functions `Nat → Option Rat`.
-/

namespace Tracker

/-- One observation `{date, value}` of a sub-series. -/
structure Obs where
  date : Nat
  value : Rat
deriving DecidableEq, Repr

def defaultObs : Obs := ⟨0, 0⟩

/-! ### Point-in-time aggregation (`MapWithTimeline.tsx`, `getSupportAtDate`) -/

/-- The `activeParties && !activeParties.includes(party)` skip test:
a party is active when no allow-list is configured or when it is listed. -/
def isActive (activeParties : Option (List String)) (party : String) : Bool :=
  match activeParties with
  | none => true
  | some l => l.contains party

/-- One step of the inner loop of `getSupportAtDate`: the running
`(latestDate, latestValue)` pair is replaced when the point is at or before
the target and strictly newer than the recorded latest date. -/
def latestStep (target : Nat) (acc : Option (Nat × Rat)) (point : Obs) :
    Option (Nat × Rat) :=
  if point.date ≤ target then
    match acc with
    | none => some (point.date, point.value)
    | some (ld, lv) =>
      if ld < point.date then some (point.date, point.value) else some (ld, lv)
  else acc

/-- The inner loop of `getSupportAtDate`: value of the observation with the
latest date at or before `target`, `none` when there is none. -/
def latestAtOrBefore (series : List Obs) (target : Nat) : Option Rat :=
  (series.foldl (latestStep target) none).map Prod.snd

/-- One step of the outer loop of `getSupportAtDate`: running
`(totalSupport, partyCount)`. -/
def supportStep (activeParties : Option (List String)) (target : Nat)
    (acc : Rat × Nat) (e : String × List Obs) : Rat × Nat :=
  if isActive activeParties e.1 then
    match latestAtOrBefore e.2 target with
    | some v => (acc.1 + v, acc.2 + 1)
    | none => acc
  else acc

/-- Translation of `getSupportAtDate` of `MapWithTimeline.tsx`. -/
def getSupportAtDate (seriesByParty : List (String × List Obs))
    (activeParties : Option (List String)) (targetDate : Nat) : Rat :=
  let r := seriesByParty.foldl (supportStep activeParties targetDate) (0, 0)
  if 0 < r.2 then r.1 else 0

/-- Contribution of one sub-series: its latest value at or before the target,
zero when it has no observation at or before the target. -/
def contrib (target : Nat) (series : List Obs) : Rat :=
  (latestAtOrBefore series target).getD 0

/-! ### Smoothing (`TimeSeriesChart.tsx`, `calculateRollingAverage`) -/

/-- Translation of `filterByRange` of `TimeSeriesChart.tsx` with the computed cutoff date as
a parameter: `range === "all"` is `cutoff = none`, otherwise the points at or
after the cutoff are kept. -/
def filterByRange (cutoff : Option Nat) (data : List Obs) : List Obs :=
  match cutoff with
  | none => data
  | some c => data.filter (fun d => c ≤ d.date)

/-- Translation of `calculateRollingAverage` of `TimeSeriesChart.tsx`: empty when fewer than
`windowSize` points; otherwise, for each raw index `i ≥ windowSize - 1`, the
date of raw index `i` paired with the mean of the window
`data.slice(i - windowSize + 1, i + 1)`.  The call sites use `windowSize = 5`;
the translation is faithful for `1 ≤ windowSize`. -/
def calculateRollingAverage (data : List Obs) (windowSize : Nat) :
    List (Nat × Rat) :=
  if data.length < windowSize then []
  else
    ((List.range data.length).drop (windowSize - 1)).map (fun i =>
      ((data.getD i defaultObs).date,
        (((data.drop (i + 1 - windowSize)).take windowSize).map
          (fun o => o.value)).sum / (windowSize : Rat)))

/-! ### Stacked-mode alignment (`TimeSeriesChart.tsx`, stacked branch) -/

/-- The `avgMap` built by `rollingAvg.forEach(([date, value]) =>
avgMap.set(date, value))`, modelled as its lookup function (later `set`s of
the same key win, exactly as for a JavaScript `Map`). -/
def buildAvgMap (ra : List (Nat × Rat)) : Nat → Option Rat :=
  ra.foldl (fun m p => fun k => if k = p.1 then some p.2 else m k)
    (fun _ => none)

/-- Lookup test `avgMap.has(date)`. -/
def mapHas (m : Nat → Option Rat) (d : Nat) : Bool := (m d).isSome

/-- Insertion into a sorted duplicate-free list of dates. -/
def insertSorted (d : Nat) : List Nat → List Nat
  | [] => [d]
  | x :: xs =>
    if d < x then d :: x :: xs
    else if d = x then x :: xs
    else x :: insertSorted d xs

/-- Sorted deduplicated list of dates: the result of
`Array.from(allDatesSet).sort()` (a set of ISO date strings sorted
lexicographically is exactly a sorted duplicate-free list). -/
def sortDedup (l : List Nat) : List Nat := l.foldr insertSorted []

/-- The shared axis `sortedDates`: the sorted union of every party's
smoothed-series dates. -/
def allDates (smoothed : List (String × List (Nat × Rat))) : List Nat :=
  sortDedup ((smoothed.map (fun e => e.2.map Prod.fst)).flatten)

/-- Translation of `partyDates = sortedDates.filter(date => avgMap.has(date))`. -/
def partyDates (m : Nat → Option Rat) (ds : List Nat) : List Nat :=
  ds.filter (fun d => mapHas m d)

/-- The backward `while` scan for the nearest earlier known value. -/
def findPrevVal (m : Nat → Option Rat) (ds : List Nat) (idx : Nat) :
    Option Rat :=
  match (ds.take idx).reverse.find? (fun d => mapHas m d) with
  | some d => m d
  | none => none

/-- The forward `while` scan for the nearest later known value. -/
def findNextVal (m : Nat → Option Rat) (ds : List Nat) (idx : Nat) :
    Option Rat :=
  match (ds.drop (idx + 1)).find? (fun d => mapHas m d) with
  | some d => m d
  | none => none

/-- The body of `sortedDates.map((date, idx) => ...)` building
`alignedData`: own value if present; `null` outside `[firstDate, lastDate]`;
otherwise the mean of the nearest earlier and later known values when both
exist, `null` when not. -/
def alignPoint (m : Nat → Option Rat) (ds : List Nat)
    (firstD lastD : Nat) (idx date : Nat) : Nat × Option Rat :=
  match m date with
  | some v => (date, some v)
  | none =>
    if date < firstD ∨ date > lastD then (date, none)
    else
      match findPrevVal m ds idx, findNextVal m ds idx with
      | some p, some n => (date, some ((p + n) / 2))
      | _, _ => (date, none)

/-- The full `alignedData` array for one party. -/
def alignedDataFor (m : Nat → Option Rat) (ds : List Nat)
    (firstD lastD : Nat) : List (Nat × Option Rat) :=
  (List.range ds.length).map (fun idx =>
    alignPoint m ds firstD lastD idx (ds.getD idx 0))

/-- One iteration of the stacked-mode `Object.entries(...).forEach`: a party
with no smoothed dates on the axis is skipped (`return`), otherwise its
aligned series is emitted with `firstDate`/`lastDate` the first and last of
its `partyDates`. -/
def alignParty (ds : List Nat) (e : String × List (Nat × Rat)) :
    Option (String × List (Nat × Option Rat)) :=
  if (partyDates (buildAvgMap e.2) ds).isEmpty then none
  else
    some (e.1,
      alignedDataFor (buildAvgMap e.2) ds
        ((partyDates (buildAvgMap e.2) ds).headD 0)
        ((partyDates (buildAvgMap e.2) ds).getLastD 0))

/-- The stacked-mode aligned output for a map of smoothed series. -/
def stackedAligned (smoothed : List (String × List (Nat × Rat))) :
    List (String × List (Nat × Option Rat)) :=
  smoothed.filterMap (alignParty (allDates smoothed))

/-- The stacked branch of `TimeSeriesChart` from the raw series: per party,
range-filter, smooth with window 5, then align. -/
def stackedMode (seriesByParty : List (String × List Obs))
    (cutoff : Option Nat) : List (String × List (Nat × Option Rat)) :=
  stackedAligned (seriesByParty.map (fun e =>
    (e.1, calculateRollingAverage (filterByRange cutoff e.2) 5)))

/-! ### Timeline controller (`MapWithTimeline.tsx`) -/

/-- The `currentDate`/`isPlaying` state of `MapWithTimeline`; the cursor is
a millisecond timestamp. -/
structure TimelineState where
  cursor : Int
  playing : Bool
deriving DecidableEq, Repr

/-- The hardwired tick step `30 * 24 * 60 * 60 * 1000` milliseconds
(30 calendar days). -/
def stepMs : Int := 30 * 24 * 60 * 60 * 1000

/-- The `setInterval` tick body: advance by `stepMs`; when the advanced
cursor reaches or passes `endDate`, clamp to `endDate` and stop playing. -/
def tick (endB : Int) (s : TimelineState) : TimelineState :=
  if endB ≤ s.cursor + stepMs then { cursor := endB, playing := false }
  else { cursor := s.cursor + stepMs, playing := s.playing }

/-- Translation of `handlePlayPause` of `MapWithTimeline.tsx`. -/
def handlePlayPause (startB endB : Int) (s : TimelineState) : TimelineState :=
  if endB ≤ s.cursor ∧ s.playing = false then
    { cursor := startB, playing := true }
  else
    { cursor := s.cursor, playing := !s.playing }

/-! ### Loading (`page.tsx`, `loadAllCountriesData`) -/

/-- The parsed content of one `data/countries/<iso2>.json` file; a missing
`seriesByParty` field is `none`. -/
structure CountryRaw where
  country : String
  iso2 : String
  seriesByParty : Option (List (String × List Obs))
deriving DecidableEq

/-- The `CountryData` value stored by `loadAllCountriesData`. -/
structure CountryData where
  country : String
  iso2 : String
  seriesByParty : List (String × List Obs)
deriving DecidableEq

/-- The object literal `{country, iso2, seriesByParty: data.seriesByParty
|| {}}` built by `loadAllCountriesData`. -/
def mkCountryData (r : CountryRaw) : CountryData :=
  ⟨r.country, r.iso2, r.seriesByParty.getD []⟩

/-- Translation of `loadAllCountriesData` of `page.tsx` with the filesystem read abstracted:
for each summary key, a file that reads and parses yields its `CountryData`
unchanged, a missing or unreadable file is skipped. -/
def loadAllCountriesData (keys : List String)
    (readFile : String → Option CountryRaw) : List (String × CountryData) :=
  keys.filterMap (fun iso2 =>
    match readFile iso2 with
    | none => none
    | some d => some (iso2, mkCountryData d))

/-- Modelled from the spec (section 4.1, SeriesStore): the normalization the
spec prescribes on load — drop observations with negative values (non-finite
values cannot arise in the exact-rational model) and sort ascending by date.
Declared only to compare the spec's prescription with what the code does. -/
def insertByDate (o : Obs) : List Obs → List Obs
  | [] => [o]
  | x :: xs => if o.date ≤ x.date then o :: x :: xs else x :: insertByDate o xs

/-- Modelled from the spec (section 4.1, SeriesStore), see `insertByDate`. -/
def normalizeSeries (s : List Obs) : List Obs :=
  (s.filter (fun o => 0 ≤ o.value)).foldr insertByDate []

/-- A one-country file table: `de.json` parses to a series holding a
negative, out-of-order observation; every other read fails. -/
def fDE : String → Option CountryRaw := fun k =>
  if k = "de" then some ⟨"Germany", "de", some [("p", [⟨2, 5⟩, ⟨1, -3⟩])]⟩
  else none

/-! ## Timeline controller claims -/

/-- Claim C6: when a play request arrives while the controller is idle with
the cursor at the end bound, the cursor is first reset to the start bound and
the state becomes Playing, and the next tick advances by the configured step
from the start bound; a play request in any other idle position (cursor
within bounds) enters Playing without moving the cursor. -/
theorem claim_C6 : ∀ (startB endB : Int) (s : TimelineState),
    s.playing = false → s.cursor ≤ endB →
    ((s.cursor = endB →
        handlePlayPause startB endB s = ⟨startB, true⟩ ∧
        (startB + stepMs ≤ endB →
          (tick endB (handlePlayPause startB endB s)).cursor = startB + stepMs))
     ∧ (s.cursor < endB → handlePlayPause startB endB s = ⟨s.cursor, true⟩)) := by
  intro startB endB s hp hc
  constructor
  · intro he
    have h1 : handlePlayPause startB endB s = ⟨startB, true⟩ := by
      unfold handlePlayPause
      rw [if_pos ⟨le_of_eq he.symm, hp⟩]
    refine ⟨h1, ?_⟩
    intro hs
    rw [h1]
    unfold tick
    by_cases h2 : endB ≤ startB + stepMs
    · simp only [if_pos h2]
      omega
    · simp only [if_neg h2]
  · intro hlt
    unfold handlePlayPause
    rw [if_neg]
    · simp [hp]
    · rintro ⟨h1, _⟩
      omega

/-- Witness for C6 at concrete bounds: idle at the end bound, play resets to
the start bound and enters Playing, the next tick lands one step past the
start bound; idle strictly inside the bounds, play keeps the cursor. -/
theorem claim_C6_witness :
    handlePlayPause 0 (3 * stepMs) ⟨3 * stepMs, false⟩ = ⟨0, true⟩ ∧
    (tick (3 * stepMs) (handlePlayPause 0 (3 * stepMs) ⟨3 * stepMs, false⟩)).cursor
      = 0 + stepMs ∧
    handlePlayPause 0 (3 * stepMs) ⟨stepMs, false⟩ = ⟨stepMs, true⟩ := by
  have h1 := claim_C6 0 (3 * stepMs) ⟨3 * stepMs, false⟩ rfl (by decide)
  have h2 := claim_C6 0 (3 * stepMs) ⟨stepMs, false⟩ rfl (by decide)
  exact ⟨(h1.1 rfl).1, (h1.1 rfl).2 (by decide), h2.2 (by decide)⟩

/-- Claim C7: in the Playing state each tick advances the cursor by the fixed
30-day step (`stepMs` milliseconds); when the advanced cursor would exceed
the end bound it clamps to exactly the end bound and the state becomes Idle;
under tick advancement the cursor never moves strictly past the end bound. -/
theorem claim_C7 : ∀ (endB : Int) (s : TimelineState), s.playing = true →
    ((s.cursor + stepMs ≤ endB → (tick endB s).cursor = s.cursor + stepMs)
     ∧ (endB < s.cursor + stepMs → tick endB s = ⟨endB, false⟩)
     ∧ (s.cursor ≤ endB → (tick endB s).cursor ≤ endB)) := by
  intro endB s _
  refine ⟨?_, ?_, ?_⟩
  · intro h1
    unfold tick
    by_cases h : endB ≤ s.cursor + stepMs
    · simp only [if_pos h]
      omega
    · simp only [if_neg h]
  · intro h1
    unfold tick
    rw [if_pos (le_of_lt h1)]
  · intro h1
    unfold tick
    by_cases h : endB ≤ s.cursor + stepMs
    · simp only [if_pos h]
      exact le_refl _
    · simp only [if_neg h]
      omega

/-- Witness for C7 at concrete bounds: a mid-range tick advances by exactly
one step; a tick from one millisecond before the end bound clamps to the end
bound and stops; the clamped cursor does not pass the end bound. -/
theorem claim_C7_witness :
    (tick (10 * stepMs) ⟨0, true⟩).cursor = 0 + stepMs ∧
    tick (10 * stepMs) ⟨10 * stepMs - 1, true⟩ = ⟨10 * stepMs, false⟩ ∧
    (tick (10 * stepMs) ⟨10 * stepMs - 1, true⟩).cursor ≤ 10 * stepMs := by
  have h1 := claim_C7 (10 * stepMs) ⟨0, true⟩ rfl
  have h2 := claim_C7 (10 * stepMs) ⟨10 * stepMs - 1, true⟩ rfl
  exact ⟨h1.1 (by decide), h2.2.1 (by decide), h2.2.2 (by decide)⟩

/-! ## Loading claim -/

/-- Counterexample to claim C8: `loadAllCountriesData` hands the parsed
series to downstream components verbatim — the loaded series for country
`de` still holds a negative-valued observation and is not sorted ascending
by date, differing from its normalized form. -/
theorem claim_C8_counterexample :
    loadAllCountriesData ["de"] fDE
      = [("de", ⟨"Germany", "de", [("p", [⟨2, 5⟩, ⟨1, -3⟩])]⟩)]
    ∧ normalizeSeries [⟨2, 5⟩, ⟨1, -3⟩] ≠ [⟨2, 5⟩, ⟨1, -3⟩] := by
  constructor
  · norm_num [loadAllCountriesData, fDE, mkCountryData, List.filterMap]
  · norm_num [normalizeSeries, insertByDate, List.filter]

/-- Claim C8 amended: on load no normalization is performed — each summary
country whose detail file reads and parses is emitted with its series map
taken verbatim from the file (defaulting to empty when the field is absent);
negative or non-finite observation values are kept, the input order is kept,
and countries whose file is missing are skipped. -/
theorem claim_C8_amended : ∀ (keys : List String)
    (f : String → Option CountryRaw) (k : String) (d : CountryData),
    ((k, d) ∈ loadAllCountriesData keys f →
      k ∈ keys ∧ (f k).map mkCountryData = some d)
    ∧ (k ∈ keys → (f k).map mkCountryData = some d →
      (k, d) ∈ loadAllCountriesData keys f) := by
  intro keys f k d
  constructor
  · intro h
    obtain ⟨a, ha, hfa⟩ := List.mem_filterMap.mp h
    cases hf : f a with
    | none => rw [hf] at hfa; simp at hfa
    | some r =>
      rw [hf] at hfa
      simp only [Option.some.injEq, Prod.mk.injEq] at hfa
      obtain ⟨rfl, rfl⟩ := hfa
      exact ⟨ha, by rw [hf]; rfl⟩
  · intro hk hfd
    cases hf : f k with
    | none => rw [hf] at hfd; simp at hfd
    | some r =>
      rw [hf] at hfd
      simp only [Option.map_some', Option.some.injEq] at hfd
      refine List.mem_filterMap.mpr ⟨k, hk, ?_⟩
      rw [hf]
      show some (k, mkCountryData r) = some (k, d)
      rw [hfd]

/-- Witness for the amended C8: the un-normalized `de` record is a member of
the loaded output. -/
theorem claim_C8_witness :
    ("de", CountryData.mk "Germany" "de" [("p", [⟨2, 5⟩, ⟨1, -3⟩])])
      ∈ loadAllCountriesData ["de"] fDE := by
  refine (claim_C8_amended ["de"] fDE "de" _).2 (by simp) ?_
  norm_num [fDE, mkCountryData]

/-! ## Smoothing claim -/

/-- A slice of `data` written by explicit indices: `data.slice(a, a + w)`
maps position `j` to the element at raw index `a + j`. -/
lemma drop_take_map_value (data : List Obs) (a w : Nat)
    (h : a + w ≤ data.length) :
    ((data.drop a).take w).map (fun o => o.value)
      = (List.range w).map (fun j => (data.getD (a + j) defaultObs).value) := by
  apply List.ext_getElem?
  intro n
  rw [List.getElem?_map, List.getElem?_map]
  by_cases hn : n < w
  · rw [List.getElem?_take, if_pos hn, List.getElem?_drop]
    have hlen : a + n < data.length := by omega
    rw [List.getElem?_eq_getElem hlen]
    rw [List.getElem?_eq_getElem (by simpa using hn : n < (List.range w).length)]
    simp only [Option.map_some', List.getElem_range]
    rw [List.getD_eq_getElem?_getD, List.getElem?_eq_getElem hlen]
    rfl
  · rw [List.getElem?_take, if_neg hn]
    rw [List.getElem?_eq_none (by simpa using Nat.le_of_not_lt hn)]
    rfl

/-- Claim C2: for every raw series and window of at least 1, the smoother
returns `max 0 (len - windowSize + 1)` points — empty whenever the input is
shorter than the window — and its output point for raw index `i` (with
`i ≥ windowSize - 1`) carries the date of raw index `i` and the arithmetic
mean of the raw values at indices `i - windowSize + 1 .. i`; on the 5-point
series of Scenario 1 with window 5 the output is exactly
`[(2024-01-29, 14)]`. -/
theorem claim_C2 :
    (∀ (data : List Obs) (w : Nat), 1 ≤ w →
      (((calculateRollingAverage data w).length : Int)
          = max 0 ((data.length : Int) - w + 1))
      ∧ (data.length < w → calculateRollingAverage data w = [])
      ∧ (∀ i, w - 1 ≤ i → i < data.length →
          (calculateRollingAverage data w).getD (i - (w - 1)) (0, 0)
            = ((data.getD i defaultObs).date,
               ((List.range w).map
                 (fun j => (data.getD (i - (w - 1) + j) defaultObs).value)).sum
                 / (w : Rat))))
    ∧ calculateRollingAverage
        [⟨20240101, 10⟩, ⟨20240108, 12⟩, ⟨20240115, 14⟩, ⟨20240122, 16⟩,
          ⟨20240129, 18⟩] 5
      = [(20240129, 14)] := by
  constructor
  · intro data w hw
    refine ⟨?_, ?_, ?_⟩
    · unfold calculateRollingAverage
      by_cases h : data.length < w
      · rw [if_pos h]
        simp only [List.length_nil, Nat.cast_zero]
        omega
      · rw [if_neg h]
        simp only [List.length_map, List.length_drop, List.length_range]
        omega
    · intro h
      unfold calculateRollingAverage
      rw [if_pos h]
    · intro i hwi hi
      have hlw : ¬ data.length < w := by omega
      unfold calculateRollingAverage
      rw [if_neg hlw]
      rw [List.getD_eq_getElem?_getD, List.getElem?_map, List.getElem?_drop]
      have hidx : w - 1 + (i - (w - 1)) = i := by omega
      rw [hidx]
      rw [List.getElem?_eq_getElem (by simpa using hi : i < (List.range data.length).length)]
      simp only [Option.map_some', List.getElem_range, Option.getD_some]
      have ha : i + 1 - w = i - (w - 1) := by omega
      rw [ha, drop_take_map_value data (i - (w - 1)) w (by omega)]
  · norm_num [calculateRollingAverage, defaultObs, List.range_succ]

/-- Witness for C2 on the Scenario 1 series: the length formula and the
index-4 output point, with the window hypotheses discharged concretely. -/
theorem claim_C2_witness :
    (((calculateRollingAverage
        [⟨20240101, 10⟩, ⟨20240108, 12⟩, ⟨20240115, 14⟩, ⟨20240122, 16⟩,
          ⟨20240129, 18⟩] 5).length : Int)
      = max 0 (([⟨20240101, (10:Rat)⟩, ⟨20240108, 12⟩, ⟨20240115, 14⟩,
          ⟨20240122, 16⟩, ⟨20240129, 18⟩] : List Obs).length - 5 + 1))
    ∧ (calculateRollingAverage
        [⟨20240101, 10⟩, ⟨20240108, 12⟩, ⟨20240115, 14⟩, ⟨20240122, 16⟩,
          ⟨20240129, 18⟩] 5).getD (4 - (5 - 1)) (0, 0)
      = ((([⟨20240101, (10:Rat)⟩, ⟨20240108, 12⟩, ⟨20240115, 14⟩,
            ⟨20240122, 16⟩, ⟨20240129, 18⟩] : List Obs).getD 4 defaultObs).date,
         ((List.range 5).map (fun j =>
            (([⟨20240101, (10:Rat)⟩, ⟨20240108, 12⟩, ⟨20240115, 14⟩,
              ⟨20240122, 16⟩, ⟨20240129, 18⟩] : List Obs).getD
                (4 - (5 - 1) + j) defaultObs).value)).sum / (5 : Rat)) := by
  have h := claim_C2.1
    [⟨20240101, 10⟩, ⟨20240108, 12⟩, ⟨20240115, 14⟩, ⟨20240122, 16⟩,
      ⟨20240129, 18⟩] 5 (by decide)
  exact ⟨h.1, h.2.2 4 (by decide) (by decide)⟩

/-! ## Aggregation lemmas -/

/-- A series in which every observation is strictly after the target leaves
the latest-scan accumulator at `none`. -/
lemma latest_none_of_no_eligible (t : Nat) :
    ∀ (s : List Obs), (∀ o ∈ s, ¬ o.date ≤ t) →
      s.foldl (latestStep t) none = none := by
  intro s
  induction s with
  | nil => intro _; rfl
  | cons o rest ih =>
    intro h
    rw [List.foldl_cons]
    have : latestStep t none o = none := by
      unfold latestStep
      rw [if_neg (h o (List.mem_cons_self o rest))]
    rw [this]
    exact ih (fun o2 ho2 => h o2 (List.mem_cons_of_mem o ho2))

/-- Full characterisation of the latest-observation scan: `none` means no
observation is at or before the target; `some (d, v)` means the scan settled
on the first observation, in input order, whose date is the maximal date at
or before the target. -/
lemma latestFold_spec (t : Nat) (s : List Obs) :
    (s.foldl (latestStep t) none = none → ∀ o ∈ s, ¬ o.date ≤ t)
    ∧ (∀ dd vv, s.foldl (latestStep t) none = some (dd, vv) →
        dd ≤ t
        ∧ (∃ pre o post, s = pre ++ o :: post ∧ o.date = dd ∧ o.value = vv
            ∧ ∀ o2 ∈ pre, o2.date ≤ t → o2.date < dd)
        ∧ ∀ o2 ∈ s, o2.date ≤ t → o2.date ≤ dd) := by
  induction s using List.reverseRecOn with
  | nil =>
    constructor
    · intro _ o ho
      simp at ho
    · intro dd vv h
      simp [List.foldl] at h
  | append_singleton l a ih =>
    have hfold : (l ++ [a]).foldl (latestStep t) none
        = latestStep t (l.foldl (latestStep t) none) a := by
      simp [List.foldl_append]
    by_cases ha : a.date ≤ t
    · cases hF : l.foldl (latestStep t) none with
      | none =>
        have hres : (l ++ [a]).foldl (latestStep t) none
            = some (a.date, a.value) := by
          rw [hfold, hF]
          unfold latestStep
          rw [if_pos ha]
        constructor
        · intro h
          rw [hres] at h
          exact absurd h (by simp)
        · intro dd vv h
          rw [hres] at h
          simp only [Option.some.injEq, Prod.mk.injEq] at h
          obtain ⟨rfl, rfl⟩ := h
          refine ⟨ha, ⟨l, a, [], by simp, rfl, rfl, ?_⟩, ?_⟩
          · intro o2 ho2 ho2t
            exact absurd ho2t (ih.1 hF o2 ho2)
          · intro o2 ho2 ho2t
            rcases List.mem_append.mp ho2 with h1 | h1
            · exact absurd ho2t (ih.1 hF o2 h1)
            · rw [List.mem_singleton.mp h1]
      | some dv =>
        obtain ⟨ld, lv⟩ := dv
        obtain ⟨hldt, ⟨pre, o, post, hdec, hod, hov, hpre⟩, hmax⟩ :=
          ih.2 ld lv hF
        by_cases hlt : ld < a.date
        · have hres : (l ++ [a]).foldl (latestStep t) none
              = some (a.date, a.value) := by
            rw [hfold, hF]
            unfold latestStep
            rw [if_pos ha]
            show (if ld < a.date then some (a.date, a.value)
              else some (ld, lv)) = some (a.date, a.value)
            rw [if_pos hlt]
          constructor
          · intro h
            rw [hres] at h
            exact absurd h (by simp)
          · intro dd vv h
            rw [hres] at h
            simp only [Option.some.injEq, Prod.mk.injEq] at h
            obtain ⟨rfl, rfl⟩ := h
            refine ⟨ha, ⟨l, a, [], by simp, rfl, rfl, ?_⟩, ?_⟩
            · intro o2 ho2 ho2t
              exact lt_of_le_of_lt (hmax o2 ho2 ho2t) hlt
            · intro o2 ho2 ho2t
              rcases List.mem_append.mp ho2 with h1 | h1
              · exact le_of_lt (lt_of_le_of_lt (hmax o2 h1 ho2t) hlt)
              · rw [List.mem_singleton.mp h1]
        · have hres : (l ++ [a]).foldl (latestStep t) none
              = some (ld, lv) := by
            rw [hfold, hF]
            unfold latestStep
            rw [if_pos ha]
            show (if ld < a.date then some (a.date, a.value)
              else some (ld, lv)) = some (ld, lv)
            rw [if_neg hlt]
          constructor
          · intro h
            rw [hres] at h
            exact absurd h (by simp)
          · intro dd vv h
            rw [hres] at h
            simp only [Option.some.injEq, Prod.mk.injEq] at h
            obtain ⟨rfl, rfl⟩ := h
            refine ⟨hldt, ⟨pre, o, post ++ [a], ?_, hod, hov, hpre⟩, ?_⟩
            · rw [hdec]
              simp
            · intro o2 ho2 ho2t
              rcases List.mem_append.mp ho2 with h1 | h1
              · exact hmax o2 h1 ho2t
              · rw [List.mem_singleton.mp h1]
                omega
    · have hres : (l ++ [a]).foldl (latestStep t) none
          = l.foldl (latestStep t) none := by
        rw [hfold]
        unfold latestStep
        rw [if_neg ha]
      constructor
      · intro h o ho
        rw [hres] at h
        rcases List.mem_append.mp ho with h1 | h1
        · exact ih.1 h o h1
        · rw [List.mem_singleton.mp h1]
          exact ha
      · intro dd vv h
        rw [hres] at h
        obtain ⟨hddt, ⟨pre, o, post, hdec, hod, hov, hpre⟩, hmax⟩ :=
          ih.2 dd vv h
        refine ⟨hddt, ⟨pre, o, post ++ [a], ?_, hod, hov, hpre⟩, ?_⟩
        · rw [hdec]
          simp
        · intro o2 ho2 ho2t
          rcases List.mem_append.mp ho2 with h1 | h1
          · exact hmax o2 h1 ho2t
          · rw [List.mem_singleton.mp h1] at ho2t ⊢
            exact absurd ho2t ha

/-- The element at the boundary position of an append-cons decomposition. -/
lemma getElem_append_cons {α : Type} (pre post : List α) (o : α)
    (h : pre.length < (pre ++ o :: post).length) :
    (pre ++ o :: post)[pre.length] = o := by
  rw [List.getElem_append_right (le_refl pre.length)]
  simp

/-- First-occurrence-wins: when `o` is the first observation, in input order,
attaining the maximal date at or before the target, the scan returns exactly
`o`'s value. -/
lemma latest_first_wins (s : List Obs) (t : Nat) (pre : List Obs) (o : Obs)
    (post : List Obs) (hs : s = pre ++ o :: post) (ho : o.date ≤ t)
    (hpre : ∀ o2 ∈ pre, o2.date ≤ t → o2.date < o.date)
    (hmax : ∀ o2 ∈ s, o2.date ≤ t → o2.date ≤ o.date) :
    latestAtOrBefore s t = some o.value := by
  have hmem : o ∈ s := by
    rw [hs]
    exact List.mem_append.mpr (Or.inr (List.mem_cons_self o post))
  unfold latestAtOrBefore
  cases hF : s.foldl (latestStep t) none with
  | none => exact absurd ho ((latestFold_spec t s).1 hF o hmem)
  | some dv =>
    obtain ⟨dd, vv⟩ := dv
    obtain ⟨hddt, ⟨pre2, o2, post2, hdec2, hod2, hov2, hpre2⟩, hmax2⟩ :=
      (latestFold_spec t s).2 dd vv hF
    have ho2mem : o2 ∈ s := by
      rw [hdec2]
      exact List.mem_append.mpr (Or.inr (List.mem_cons_self o2 post2))
    have hdo : dd = o.date := by
      have h1 : dd ≤ o.date := hod2 ▸ hmax o2 ho2mem (hod2 ▸ hddt)
      have h2 : o.date ≤ dd := hmax2 o hmem ho
      omega
    have hlen : pre.length = pre2.length := by
      by_contra hne
      rcases Nat.lt_or_ge pre.length pre2.length with hlt | hge
      · have homem : o ∈ pre2 := by
          have hidx : pre.length < s.length := by
            rw [hs]
            simp
          have h1 : s[pre.length] = o := by
            subst hs
            exact getElem_append_cons pre post o hidx
          have h2 : s[pre.length] ∈ pre2 := by
            subst hdec2
            rw [List.getElem_append_left hlt]
            exact List.getElem_mem hlt
          rw [h1] at h2
          exact h2
        have := hpre2 o homem ho
        omega
      · have hlt2 : pre2.length < pre.length := by omega
        have ho2pre : o2 ∈ pre := by
          have hidx : pre2.length < s.length := by
            rw [hdec2]
            simp
          have h1 : s[pre2.length] = o2 := by
            subst hdec2
            exact getElem_append_cons pre2 post2 o2 hidx
          have h2 : s[pre2.length] ∈ pre := by
            subst hs
            rw [List.getElem_append_left hlt2]
            exact List.getElem_mem hlt2
          rw [h1] at h2
          exact h2
        have := hpre o2 ho2pre (hod2 ▸ hddt)
        omega
    have heq : o = o2 := by
      have hj : pre ++ o :: post = pre2 ++ o2 :: post2 := by
        rw [← hs, ← hdec2]
      obtain ⟨-, h2⟩ := List.append_inj hj hlen
      exact (List.cons.injEq _ _ _ _ ▸ h2).1
    rw [Option.map_some']
    rw [heq, hov2]

/-- The outer fold of `getSupportAtDate` accumulates the sum of the active
parties' contributions and the count of active parties with data. -/
lemma support_foldl (ap : Option (List String)) (t : Nat) :
    ∀ (l : List (String × List Obs)) (a : Rat × Nat),
      l.foldl (supportStep ap t) a
        = (a.1 + ((l.filter (fun e => isActive ap e.1)).map
              (fun e => contrib t e.2)).sum,
           a.2 + (l.filter (fun e =>
              isActive ap e.1 && (latestAtOrBefore e.2 t).isSome)).length) := by
  intro l
  induction l with
  | nil => intro a; simp
  | cons e rest ih =>
    intro a
    rw [List.foldl_cons, ih]
    cases hA : isActive ap e.1 with
    | false =>
      have hstep : supportStep ap t a e = a := by
        unfold supportStep
        rw [hA]
        simp
      rw [hstep]
      simp [List.filter_cons, hA]
    | true =>
      cases hL : latestAtOrBefore e.2 t with
      | none =>
        have hstep : supportStep ap t a e = a := by
          unfold supportStep
          rw [hA, hL]
          simp
        have hcontrib : contrib t e.2 = 0 := by
          unfold contrib
          rw [hL]
          rfl
        rw [hstep]
        simp [List.filter_cons, hA, hL, hcontrib]
      | some v =>
        have hstep : supportStep ap t a e = (a.1 + v, a.2 + 1) := by
          unfold supportStep
          rw [hA, hL]
          simp
        have hcontrib : contrib t e.2 = v := by
          unfold contrib
          rw [hL]
          rfl
        rw [hstep]
        have hfilter1 : (e :: rest).filter (fun e2 => isActive ap e2.1)
            = e :: rest.filter (fun e2 => isActive ap e2.1) := by
          simp [List.filter_cons, hA]
        have hfilter2 : (e :: rest).filter (fun e2 =>
              isActive ap e2.1 && (latestAtOrBefore e2.2 t).isSome)
            = e :: rest.filter (fun e2 =>
              isActive ap e2.1 && (latestAtOrBefore e2.2 t).isSome) := by
          simp [List.filter_cons, hA, hL]
        rw [hfilter1, hfilter2]
        simp only [List.map_cons, List.sum_cons, List.length_cons, hcontrib,
          Prod.mk.injEq]
        constructor
        · ring
        · omega

/-! ## Aggregation claims -/

/-- Claim C1: for every entity and target date, `getSupportAtDate` returns
the sum over the active sub-series of each one's latest value at or before
the date (`contrib`, which is 0 for a sub-series with nothing at or before
the date); the latest-scan is `none` exactly on series with no observation
at or before the date and otherwise picks an observation with the maximal
date at or before the target; and when no active sub-series has any
observation at or before the date the result is the defined value 0. -/
theorem claim_C1 : ∀ (sbp : List (String × List Obs))
    (ap : Option (List String)) (t : Nat),
    (getSupportAtDate sbp ap t
      = ((sbp.filter (fun e => isActive ap e.1)).map
          (fun e => contrib t e.2)).sum)
    ∧ (∀ s : List Obs, (∀ o ∈ s, t < o.date) → latestAtOrBefore s t = none)
    ∧ (∀ (s : List Obs) (v : Rat), latestAtOrBefore s t = some v →
        ∃ o ∈ s, o.date ≤ t ∧ o.value = v
          ∧ ∀ o2 ∈ s, o2.date ≤ t → o2.date ≤ o.date)
    ∧ ((∀ e ∈ sbp, isActive ap e.1 = true → ∀ o ∈ e.2, t < o.date) →
        getSupportAtDate sbp ap t = 0) := by
  intro sbp ap t
  have hnone : ∀ s : List Obs, (∀ o ∈ s, t < o.date) →
      latestAtOrBefore s t = none := by
    intro s h
    unfold latestAtOrBefore
    rw [latest_none_of_no_eligible t s (fun o ho hle => by
      have := h o ho
      omega)]
    rfl
  have hsum : getSupportAtDate sbp ap t
      = ((sbp.filter (fun e => isActive ap e.1)).map
          (fun e => contrib t e.2)).sum := by
    unfold getSupportAtDate
    rw [support_foldl ap t sbp (0, 0)]
    simp only [zero_add]
    by_cases hC : 0 < (sbp.filter (fun e =>
        isActive ap e.1 && (latestAtOrBefore e.2 t).isSome)).length
    · rw [if_pos hC]
    · rw [if_neg hC]
      have hnil : sbp.filter (fun e =>
          isActive ap e.1 && (latestAtOrBefore e.2 t).isSome) = [] := by
        rcases List.eq_nil_or_concat (sbp.filter (fun e =>
          isActive ap e.1 && (latestAtOrBefore e.2 t).isSome)) with h | ⟨_, _, h⟩
        · exact h
        · rw [h] at hC
          simp at hC
      symm
      apply List.sum_eq_zero
      intro x hx
      obtain ⟨e, he, rfl⟩ := List.mem_map.mp hx
      obtain ⟨hesbp, heact⟩ := List.mem_filter.mp he
      have := List.filter_eq_nil_iff.mp hnil e hesbp
      rw [heact] at this
      simp only [Bool.true_and] at this
      unfold contrib
      rw [Option.not_isSome_iff_eq_none.mp this]
      rfl
  refine ⟨hsum, hnone, ?_, ?_⟩
  · intro s v hv
    unfold latestAtOrBefore at hv
    cases hF : s.foldl (latestStep t) none with
    | none =>
      rw [hF] at hv
      exact absurd hv (by simp)
    | some dv =>
      obtain ⟨dd, vv⟩ := dv
      rw [hF] at hv
      simp only [Option.map_some', Option.some.injEq] at hv
      obtain ⟨hddt, ⟨pre, o, post, hdec, hod, hov, -⟩, hmax⟩ :=
        (latestFold_spec t s).2 dd vv hF
      refine ⟨o, ?_, ?_, ?_, ?_⟩
      · rw [hdec]
        exact List.mem_append.mpr (Or.inr (List.mem_cons_self o post))
      · omega
      · rw [hov, hv]
      · intro o2 ho2 ho2t
        have := hmax o2 ho2 ho2t
        omega
  · intro h
    rw [hsum]
    apply List.sum_eq_zero
    intro x hx
    obtain ⟨e, he, rfl⟩ := List.mem_map.mp hx
    obtain ⟨hesbp, heact⟩ := List.mem_filter.mp he
    unfold contrib
    rw [hnone e.2 (h e hesbp heact)]
    rfl

/-- Witness for C1: the sum formula at a two-party entity, and the
defined-zero result for an entity whose only observation is after the
target date. -/
theorem claim_C1_witness :
    (getSupportAtDate [("a", [⟨3, 12⟩]), ("b", [⟨9, 7⟩])] none 5
      = (([("a", [(⟨3, 12⟩ : Obs)]), ("b", [⟨9, 7⟩])].filter
          (fun e => isActive none e.1)).map (fun e => contrib 5 e.2)).sum)
    ∧ getSupportAtDate [("c", [⟨9, 7⟩])] none 5 = 0 := by
  refine ⟨(claim_C1 [("a", [⟨3, 12⟩]), ("b", [⟨9, 7⟩])] none 5).1,
    (claim_C1 [("c", [⟨9, 7⟩])] none 5).2.2.2 ?_⟩
  intro e he _ o ho
  simp only [List.mem_singleton] at he
  subst he
  simp only [List.mem_singleton] at ho
  subst ho
  decide

/-- Counterexample to claim C5 as stated: with a single observation at date
2, the dates `D1 = 1 < D2 = 2` have no observation strictly between them
(the one date, 2, is not strictly between 1 and 2), yet the aggregation
differs at the two dates (0 versus 5). -/
theorem claim_C5_counterexample :
    (1 : Nat) < 2
    ∧ ¬((1 : Nat) < 2 ∧ (2 : Nat) < 2)
    ∧ getSupportAtDate [("p", [⟨2, 5⟩])] none 1
        ≠ getSupportAtDate [("p", [⟨2, 5⟩])] none 2 := by
  refine ⟨by decide, by decide, ?_⟩
  norm_num [getSupportAtDate, supportStep, latestAtOrBefore, latestStep,
    isActive]

/-- One step of the latest-scan only inspects the target through the
eligibility test `date ≤ target`. -/
lemma latestStep_congr (t1 t2 : Nat) (o : Obs)
    (h : (o.date ≤ t1) ↔ (o.date ≤ t2)) (acc : Option (Nat × Rat)) :
    latestStep t1 acc o = latestStep t2 acc o := by
  unfold latestStep
  by_cases h1 : o.date ≤ t1
  · rw [if_pos h1, if_pos (h.mp h1)]
  · rw [if_neg h1, if_neg (fun hh => h1 (h.mpr hh))]

/-- Two target dates with the same eligible set give the same latest value. -/
lemma latestAtOrBefore_congr (s : List Obs) (t1 t2 : Nat)
    (h : ∀ o ∈ s, (o.date ≤ t1) ↔ (o.date ≤ t2)) :
    latestAtOrBefore s t1 = latestAtOrBefore s t2 := by
  unfold latestAtOrBefore
  congr 1
  apply List.foldl_ext
  intro acc o ho
  exact latestStep_congr t1 t2 o (h o ho) acc

/-- Claim C5 amended: the aggregation is piecewise-constant over the
half-open interval — for `D1 < D2` with no observation whose date `d`
satisfies `D1 < d ≤ D2` (an observation exactly at `D2` does change the
value, which is what the counterexample exhibits), the results at `D1` and
`D2` agree. -/
theorem claim_C5 : ∀ (sbp : List (String × List Obs))
    (ap : Option (List String)) (D1 D2 : Nat),
    D1 < D2 → (∀ e ∈ sbp, ∀ o ∈ e.2, ¬(D1 < o.date ∧ o.date ≤ D2)) →
    getSupportAtDate sbp ap D1 = getSupportAtDate sbp ap D2 := by
  intro sbp ap D1 D2 hlt h
  unfold getSupportAtDate
  have hfold : sbp.foldl (supportStep ap D1) (0, 0)
      = sbp.foldl (supportStep ap D2) (0, 0) := by
    apply List.foldl_ext
    intro a e he
    unfold supportStep
    rw [latestAtOrBefore_congr e.2 D1 D2 (fun o ho => by
      have := h e he o ho
      constructor
      · intro h1
        omega
      · intro h1
        omega)]
  rw [hfold]

/-- Witness for the amended C5: dates 2 and 3 with observations only at 1
and 10 — none in the half-open interval — give equal support. -/
theorem claim_C5_witness :
    getSupportAtDate [("p", [⟨1, 5⟩, ⟨10, 7⟩])] none 2
      = getSupportAtDate [("p", [⟨1, 5⟩, ⟨10, 7⟩])] none 3 := by
  apply claim_C5 [("p", [⟨1, 5⟩, ⟨10, 7⟩])] none 2 3 (by decide)
  intro e he o ho
  simp only [List.mem_singleton] at he
  subst he
  simp only [List.mem_cons] at ho
  rcases ho with rfl | rfl | h
  · decide
  · decide
  · simp at h

/-- Claim C10: the latest-observation scan resolves duplicate dates by first
occurrence in input order — when `o` is the first observation attaining the
maximal date at or before the target, its value (not a later duplicate's) is
returned — and concretely two same-date observations (values 10 then 20)
contribute 10, the first, not the last or the maximum. -/
theorem claim_C10 :
    (∀ (s : List Obs) (t : Nat) (pre : List Obs) (o : Obs) (post : List Obs),
      s = pre ++ o :: post → o.date ≤ t →
      (∀ o2 ∈ pre, o2.date ≤ t → o2.date < o.date) →
      (∀ o2 ∈ s, o2.date ≤ t → o2.date ≤ o.date) →
      latestAtOrBefore s t = some o.value)
    ∧ getSupportAtDate [("p", [⟨5, 10⟩, ⟨5, 20⟩])] none 5 = 10
    ∧ (10 : Rat) ≠ 20 := by
  refine ⟨latest_first_wins, ?_, by norm_num⟩
  norm_num [getSupportAtDate, supportStep, latestAtOrBefore, latestStep,
    isActive]

/-- Witness for C10: the scan over the duplicate-date series returns the
first occurrence's value. -/
theorem claim_C10_witness :
    latestAtOrBefore [⟨5, 10⟩, ⟨5, 20⟩] 5 = some 10 := by
  have h := claim_C10.1 [⟨5, 10⟩, ⟨5, 20⟩] 5 [] ⟨5, 10⟩ [⟨5, 20⟩] rfl
    (by decide) (by simp) ?_
  · exact h
  · intro o2 ho2 _
    simp only [List.mem_cons, List.mem_singleton] at ho2
    rcases ho2 with rfl | rfl | h
    · decide
    · decide
    · simp at h

/-! ## Alignment lemmas: the shared axis -/

lemma mem_insertSorted (d x : Nat) :
    ∀ (ls : List Nat), x ∈ insertSorted d ls ↔ x = d ∨ x ∈ ls := by
  intro ls
  induction ls with
  | nil => simp [insertSorted]
  | cons a t ih =>
    unfold insertSorted
    by_cases h1 : d < a
    · rw [if_pos h1]
      simp [List.mem_cons]
    · rw [if_neg h1]
      by_cases h2 : d = a
      · rw [if_pos h2]
        subst h2
        simp [List.mem_cons]
      · rw [if_neg h2]
        simp only [List.mem_cons, ih]
        tauto

lemma sorted_insertSorted (d : Nat) :
    ∀ (ls : List Nat), ls.Sorted (· < ·) →
      (insertSorted d ls).Sorted (· < ·) := by
  intro ls
  induction ls with
  | nil => intro _; simp [insertSorted]
  | cons a t ih =>
    intro hs
    rw [List.sorted_cons] at hs
    obtain ⟨ha, ht⟩ := hs
    unfold insertSorted
    by_cases h1 : d < a
    · rw [if_pos h1, List.sorted_cons]
      refine ⟨?_, List.sorted_cons.mpr ⟨ha, ht⟩⟩
      intro b hb
      rcases List.mem_cons.mp hb with rfl | hbt
      · exact h1
      · exact lt_trans h1 (ha b hbt)
    · rw [if_neg h1]
      by_cases h2 : d = a
      · rw [if_pos h2, List.sorted_cons]
        exact ⟨ha, ht⟩
      · rw [if_neg h2, List.sorted_cons]
        refine ⟨?_, ih ht⟩
        intro b hb
        rcases (mem_insertSorted d b t).mp hb with rfl | hbt
        · omega
        · exact ha b hbt

lemma sorted_sortDedup : ∀ (ls : List Nat), (sortDedup ls).Sorted (· < ·) := by
  intro ls
  induction ls with
  | nil => simp [sortDedup]
  | cons a t ih =>
    unfold sortDedup at ih ⊢
    rw [List.foldr_cons]
    exact sorted_insertSorted a _ ih

lemma mem_sortDedup (x : Nat) :
    ∀ (ls : List Nat), x ∈ sortDedup ls ↔ x ∈ ls := by
  intro ls
  induction ls with
  | nil => simp [sortDedup]
  | cons a t ih =>
    unfold sortDedup at ih ⊢
    rw [List.foldr_cons, mem_insertSorted, ih, List.mem_cons]

lemma mem_allDates (sm : List (String × List (Nat × Rat)))
    (e : String × List (Nat × Rat)) (he : e ∈ sm) (x : Nat)
    (hx : x ∈ e.2.map Prod.fst) : x ∈ allDates sm := by
  unfold allDates
  rw [mem_sortDedup, List.mem_flatten]
  exact ⟨e.2.map Prod.fst, List.mem_map.mpr ⟨e, he, rfl⟩, hx⟩

lemma mapHas_buildAvgMap (k : Nat) :
    ∀ (ra : List (Nat × Rat)),
      mapHas (buildAvgMap ra) k = true ↔ k ∈ ra.map Prod.fst := by
  intro ra
  induction ra using List.reverseRecOn with
  | nil => simp [buildAvgMap, mapHas]
  | append_singleton t p ih =>
    unfold buildAvgMap at ih ⊢
    rw [List.foldl_append]
    simp only [List.foldl_cons, List.foldl_nil]
    unfold mapHas at ih ⊢
    by_cases hk : k = p.1
    · simp [hk, List.map_append]
    · simp only [if_neg hk, List.map_append, List.mem_append, ih]
      constructor
      · intro h
        exact Or.inl h
      · intro h
        rcases h with h | h
        · exact h
        · simp only [List.map_cons, List.map_nil, List.mem_singleton] at h
          exact absurd h hk

/-! ## Alignment lemmas: sorted-list positions -/

lemma sorted_headD_le (ls : List Nat) (hs : ls.Sorted (· < ·)) (x : Nat)
    (hx : x ∈ ls) : ls.headD 0 ≤ x := by
  cases ls with
  | nil => simp at hx
  | cons a t =>
    rw [List.sorted_cons] at hs
    rcases List.mem_cons.mp hx with rfl | hxt
    · exact le_refl _
    · exact le_of_lt (hs.1 x hxt)

lemma sorted_le_getLastD : ∀ (ls : List Nat) (dflt : Nat),
    ls.Sorted (· < ·) → ∀ x ∈ ls, x ≤ ls.getLastD dflt := by
  intro ls
  induction ls with
  | nil => intro dflt _ x hx; simp at hx
  | cons a t ih =>
    intro dflt hs x hx
    rw [List.sorted_cons] at hs
    rw [List.getLastD_cons]
    rcases List.mem_cons.mp hx with rfl | hxt
    · cases t with
      | nil => simp [List.getLastD]
      | cons b t2 =>
        have hab : x < b := hs.1 b (List.mem_cons_self b t2)
        have hble := ih x hs.2 b (List.mem_cons_self b t2)
        omega
    · exact ih a hs.2 x hxt

lemma headD_mem (ls : List Nat) (h : ls ≠ []) : ls.headD 0 ∈ ls := by
  cases ls with
  | nil => exact absurd rfl h
  | cons a t => exact List.mem_cons_self a t

lemma getLastD_mem : ∀ (ls : List Nat) (dflt : Nat), ls ≠ [] →
    ls.getLastD dflt ∈ ls := by
  intro ls
  induction ls with
  | nil => intro dflt h; exact absurd rfl h
  | cons a t ih =>
    intro dflt _
    rw [List.getLastD_cons]
    cases t with
    | nil => simp [List.getLastD]
    | cons b t2 => exact List.mem_cons_of_mem a (ih a (by simp))

lemma sorted_getElem_lt (ls : List Nat) (hs : ls.Sorted (· < ·))
    (i j : Nat) (hij : i < j) (hi : i < ls.length) (hj : j < ls.length) :
    ls[i] < ls[j] :=
  List.pairwise_iff_getElem.mp hs i j hi hj hij

lemma mem_take_of_lt_sorted (ds : List Nat) (hs : ds.Sorted (· < ·))
    (idx : Nat) (hidx : idx < ds.length) (x : Nat) (hx : x ∈ ds)
    (hlt : x < ds[idx]) : x ∈ ds.take idx := by
  obtain ⟨j, hj, hxj⟩ := List.mem_iff_getElem.mp hx
  have hjlt : j < idx := by
    by_contra hge
    push_neg at hge
    rcases Nat.eq_or_lt_of_le hge with heq | h
    · subst heq
      omega
    · have := sorted_getElem_lt ds hs idx j h hidx hj
      omega
  rw [List.mem_iff_getElem?]
  refine ⟨j, ?_⟩
  rw [List.getElem?_take, if_pos hjlt, List.getElem?_eq_getElem hj, hxj]

lemma lt_of_mem_take_sorted (ds : List Nat) (hs : ds.Sorted (· < ·))
    (idx : Nat) (hidx : idx < ds.length) (y : Nat)
    (hy : y ∈ ds.take idx) : y < ds[idx] := by
  obtain ⟨j, hjq⟩ := List.mem_iff_getElem?.mp hy
  rw [List.getElem?_take] at hjq
  by_cases hjlt : j < idx
  · rw [if_pos hjlt] at hjq
    rw [List.getElem?_eq_some] at hjq
    obtain ⟨hj, hyj⟩ := hjq
    have := sorted_getElem_lt ds hs j idx hjlt (by omega) hidx
    omega
  · rw [if_neg hjlt] at hjq
    simp at hjq

lemma mem_drop_of_gt_sorted (ds : List Nat) (hs : ds.Sorted (· < ·))
    (idx : Nat) (hidx : idx < ds.length) (x : Nat) (hx : x ∈ ds)
    (hgt : ds[idx] < x) : x ∈ ds.drop (idx + 1) := by
  obtain ⟨j, hj, hxj⟩ := List.mem_iff_getElem.mp hx
  have hjgt : idx + 1 ≤ j := by
    by_contra h
    push_neg at h
    have hle : j ≤ idx := by omega
    rcases Nat.eq_or_lt_of_le hle with heq | hlt2
    · subst heq
      omega
    · have := sorted_getElem_lt ds hs j idx hlt2 (by omega) hidx
      omega
  rw [List.mem_iff_getElem?]
  refine ⟨j - (idx + 1), ?_⟩
  rw [List.getElem?_drop]
  have harith : idx + 1 + (j - (idx + 1)) = j := by omega
  rw [harith, List.getElem?_eq_getElem hj, hxj]

lemma gt_of_mem_drop_sorted (ds : List Nat) (hs : ds.Sorted (· < ·))
    (idx : Nat) (hidx : idx < ds.length) (y : Nat)
    (hy : y ∈ ds.drop (idx + 1)) : ds[idx] < y := by
  obtain ⟨j, hjq⟩ := List.mem_iff_getElem?.mp hy
  rw [List.getElem?_drop] at hjq
  rw [List.getElem?_eq_some] at hjq
  obtain ⟨hj, hyj⟩ := hjq
  have := sorted_getElem_lt ds hs idx (idx + 1 + j) (by omega) (by omega) hj
  omega

/-! ## Alignment lemmas: scans over a sorted axis -/

lemma sortedFindFirst (p : Nat → Bool) :
    ∀ (ls : List Nat), ls.Sorted (· < ·) → ∀ a, ls.find? p = some a →
      p a = true ∧ a ∈ ls ∧ ∀ x ∈ ls, p x = true → a ≤ x := by
  intro ls
  induction ls with
  | nil => intro _ a h; simp at h
  | cons b t ih =>
    intro hs a h
    rw [List.sorted_cons] at hs
    cases hpb : p b with
    | true =>
      rw [List.find?_cons, hpb] at h
      simp only [Option.some.injEq] at h
      subst h
      refine ⟨hpb, List.mem_cons_self b t, ?_⟩
      intro x hx _
      rcases List.mem_cons.mp hx with rfl | hxt
      · exact le_refl _
      · exact le_of_lt (hs.1 x hxt)
    | false =>
      rw [List.find?_cons, hpb] at h
      obtain ⟨hpa, hat, hub⟩ := ih hs.2 a h
      refine ⟨hpa, List.mem_cons_of_mem b hat, ?_⟩
      intro x hx hpx
      rcases List.mem_cons.mp hx with rfl | hxt
      · rw [hpb] at hpx
        exact absurd hpx (by simp)
      · exact hub x hxt hpx

lemma sortedFindLast (p : Nat → Bool) :
    ∀ (ls : List Nat), ls.Sorted (· < ·) → ∀ a, ls.reverse.find? p = some a →
      p a = true ∧ a ∈ ls ∧ ∀ x ∈ ls, p x = true → x ≤ a := by
  intro ls
  induction ls using List.reverseRecOn with
  | nil => intro _ a h; simp at h
  | append_singleton t b ih =>
    intro hs a h
    have hrev : (t ++ [b]).reverse = b :: t.reverse := by simp
    rw [hrev] at h
    have hsp := List.pairwise_append.mp hs
    cases hpb : p b with
    | true =>
      rw [List.find?_cons, hpb] at h
      simp only [Option.some.injEq] at h
      subst h
      refine ⟨hpb, List.mem_append.mpr (Or.inr (List.mem_singleton.mpr rfl)), ?_⟩
      intro x hx _
      rcases List.mem_append.mp hx with hxt | hxb
      · exact le_of_lt (hsp.2.2 x hxt b (List.mem_singleton.mpr rfl))
      · rw [List.mem_singleton.mp hxb]
    | false =>
      rw [List.find?_cons, hpb] at h
      obtain ⟨hpa, hat, hub⟩ := ih hsp.1 a h
      refine ⟨hpa, List.mem_append.mpr (Or.inl hat), ?_⟩
      intro x hx hpx
      rcases List.mem_append.mp hx with hxt | hxb
      · exact hub x hxt hpx
      · rw [List.mem_singleton.mp hxb] at hpx
        rw [hpb] at hpx
        exact absurd hpx (by simp)

/-- The backward scan, given some known date strictly left of position
`idx`, returns the value at the nearest (largest) known date left of `idx`. -/
lemma findPrevVal_spec (m : Nat → Option Rat) (ds : List Nat)
    (hs : ds.Sorted (· < ·)) (idx : Nat) (hidx : idx < ds.length)
    (x : Nat) (hx : x ∈ ds) (hhas : mapHas m x = true) (hlt : x < ds[idx]) :
    ∃ d1 p, findPrevVal m ds idx = some p ∧ m d1 = some p ∧ d1 ∈ ds
      ∧ mapHas m d1 = true ∧ d1 < ds[idx]
      ∧ ∀ y ∈ ds, mapHas m y = true → y < ds[idx] → y ≤ d1 := by
  have hxtake : x ∈ ds.take idx := mem_take_of_lt_sorted ds hs idx hidx x hx hlt
  have hsome : ((ds.take idx).reverse.find? (fun d => mapHas m d)).isSome :=
    List.find?_isSome.mpr ⟨x, List.mem_reverse.mpr hxtake, hhas⟩
  obtain ⟨d1, hd1⟩ := Option.isSome_iff_exists.mp hsome
  have hstake : (ds.take idx).Sorted (· < ·) :=
    hs.sublist (List.take_sublist idx ds)
  obtain ⟨hp, hmemtake, hub⟩ :=
    sortedFindLast (fun d => mapHas m d) (ds.take idx) hstake d1 hd1
  have hd1ds : d1 ∈ ds := List.take_subset idx ds hmemtake
  obtain ⟨p, hpval⟩ := Option.isSome_iff_exists.mp hp
  refine ⟨d1, p, ?_, hpval, hd1ds, hp,
    lt_of_mem_take_sorted ds hs idx hidx d1 hmemtake, ?_⟩
  · unfold findPrevVal
    rw [hd1]
    exact hpval
  · intro y hy hyhas hylt
    exact hub y (mem_take_of_lt_sorted ds hs idx hidx y hy hylt) hyhas

/-- The forward scan, given some known date strictly right of position
`idx`, returns the value at the nearest (smallest) known date right of
`idx`. -/
lemma findNextVal_spec (m : Nat → Option Rat) (ds : List Nat)
    (hs : ds.Sorted (· < ·)) (idx : Nat) (hidx : idx < ds.length)
    (x : Nat) (hx : x ∈ ds) (hhas : mapHas m x = true) (hgt : ds[idx] < x) :
    ∃ d2 n, findNextVal m ds idx = some n ∧ m d2 = some n ∧ d2 ∈ ds
      ∧ mapHas m d2 = true ∧ ds[idx] < d2
      ∧ ∀ y ∈ ds, mapHas m y = true → ds[idx] < y → d2 ≤ y := by
  have hxdrop : x ∈ ds.drop (idx + 1) :=
    mem_drop_of_gt_sorted ds hs idx hidx x hx hgt
  have hsome : ((ds.drop (idx + 1)).find? (fun d => mapHas m d)).isSome :=
    List.find?_isSome.mpr ⟨x, hxdrop, hhas⟩
  obtain ⟨d2, hd2⟩ := Option.isSome_iff_exists.mp hsome
  have hsdrop : (ds.drop (idx + 1)).Sorted (· < ·) :=
    hs.sublist (List.drop_sublist (idx + 1) ds)
  obtain ⟨hp, hmemdrop, hlb⟩ :=
    sortedFindFirst (fun d => mapHas m d) (ds.drop (idx + 1)) hsdrop d2 hd2
  have hd2ds : d2 ∈ ds := List.drop_subset (idx + 1) ds hmemdrop
  obtain ⟨n, hnval⟩ := Option.isSome_iff_exists.mp hp
  refine ⟨d2, n, ?_, hnval, hd2ds, hp,
    gt_of_mem_drop_sorted ds hs idx hidx d2 hmemdrop, ?_⟩
  · unfold findNextVal
    rw [hd2]
    exact hnval
  · intro y hy hyhas hygt
    exact hlb y (mem_drop_of_gt_sorted ds hs idx hidx y hy hygt) hyhas

/-- Lemma: `alignPoint` always carries the axis date in its first component. -/
lemma alignPoint_fst (m : Nat → Option Rat) (ds : List Nat)
    (firstD lastD idx date : Nat) :
    (alignPoint m ds firstD lastD idx date).1 = date := by
  unfold alignPoint
  cases m date with
  | some v => rfl
  | none =>
    by_cases h : date < firstD ∨ date > lastD
    · rw [if_pos h]
    · rw [if_neg h]
      cases findPrevVal m ds idx <;> cases findNextVal m ds idx <;> rfl

/-- Core of claim C3, over a sorted axis: an aligned point is defined
exactly when its date lies within the party's first/last known axis dates. -/
lemma aligned_core (m : Nat → Option Rat) (ds : List Nat)
    (hs : ds.Sorted (· < ·)) (hne : partyDates m ds ≠ []) :
    ∀ d v, (d, v) ∈ alignedDataFor m ds ((partyDates m ds).headD 0)
        ((partyDates m ds).getLastD 0) →
      ((v ≠ none) ↔ ((partyDates m ds).headD 0 ≤ d
        ∧ d ≤ (partyDates m ds).getLastD 0)) := by
  intro d v hmem
  have hpdsorted : (partyDates m ds).Sorted (· < ·) := hs.filter _
  unfold alignedDataFor at hmem
  obtain ⟨idx, hidxmem, heq⟩ := List.mem_map.mp hmem
  have hidx : idx < ds.length := List.mem_range.mp hidxmem
  have hgetD : ds.getD idx 0 = ds[idx] := by
    rw [List.getD_eq_getElem?_getD, List.getElem?_eq_getElem hidx]
    rfl
  rw [hgetD] at heq
  have hd : ds[idx] = d := by
    have h1 := congrArg Prod.fst heq
    rw [alignPoint_fst] at h1
    exact h1
  have hv : v = (alignPoint m ds ((partyDates m ds).headD 0)
      ((partyDates m ds).getLastD 0) idx ds[idx]).2 :=
    (congrArg Prod.snd heq).symm
  rw [hd] at hv
  have hdds : d ∈ ds := by
    rw [← hd]
    exact List.getElem_mem hidx
  cases hmd : m d with
  | some v0 =>
    have hdpd : d ∈ partyDates m ds := by
      unfold partyDates
      refine List.mem_filter.mpr ⟨hdds, ?_⟩
      unfold mapHas
      rw [hmd]
      rfl
    have hv0 : v = some v0 := by
      rw [hv]
      unfold alignPoint
      rw [hmd]
    constructor
    · intro _
      exact ⟨sorted_headD_le _ hpdsorted d hdpd,
        sorted_le_getLastD _ 0 hpdsorted d hdpd⟩
    · intro _
      rw [hv0]
      simp
  | none =>
    by_cases hout : d < (partyDates m ds).headD 0
        ∨ d > (partyDates m ds).getLastD 0
    · have hvnone : v = none := by
        rw [hv]
        unfold alignPoint
        rw [hmd, if_pos hout]
      constructor
      · intro hvne
        exact absurd hvnone hvne
      · intro ⟨h1, h2⟩
        rcases hout with h | h
        · omega
        · omega
    · push_neg at hout
      obtain ⟨h1, h2⟩ := hout
      have hfpd : (partyDates m ds).headD 0 ∈ partyDates m ds :=
        headD_mem _ hne
      have hlpd : (partyDates m ds).getLastD 0 ∈ partyDates m ds :=
        getLastD_mem _ 0 hne
      obtain ⟨hfds, hfhas⟩ := List.mem_filter.mp hfpd
      obtain ⟨hlds, hlhas⟩ := List.mem_filter.mp hlpd
      have hdnothas : mapHas m d = false := by
        unfold mapHas
        rw [hmd]
        rfl
      have hflt : (partyDates m ds).headD 0 < d := by
        rcases Nat.eq_or_lt_of_le h1 with heq | hlt
        · rw [← heq] at hdnothas
          rw [hdnothas] at hfhas
          exact absurd hfhas (by simp)
        · exact hlt
      have hllt : d < (partyDates m ds).getLastD 0 := by
        rcases Nat.eq_or_lt_of_le h2 with heq | hlt
        · rw [heq] at hdnothas
          rw [hdnothas] at hlhas
          exact absurd hlhas (by simp)
        · exact hlt
      obtain ⟨d1, p, hprev, -, -, -, -, -⟩ :=
        findPrevVal_spec m ds hs idx hidx ((partyDates m ds).headD 0)
          hfds hfhas (by omega)
      obtain ⟨d2, n, hnext, -, -, -, -, -⟩ :=
        findNextVal_spec m ds hs idx hidx ((partyDates m ds).getLastD 0)
          hlds hlhas (by omega)
      have hvsome : v = some ((p + n) / 2) := by
        rw [hv]
        unfold alignPoint
        rw [hmd, if_neg (by omega : ¬(d < (partyDates m ds).headD 0
          ∨ d > (partyDates m ds).getLastD 0)), hprev, hnext]
      constructor
      · intro _
        exact ⟨h1, h2⟩
      · intro _
        rw [hvsome]
        simp

/-- Core of claim C4, over a sorted axis: an interior gap point is the mean
of the nearest earlier and nearest later known values. -/
lemma interp_core (m : Nat → Option Rat) (ds : List Nat)
    (hs : ds.Sorted (· < ·)) (idx : Nat) (hidx : idx < ds.length)
    (hnone : m ds[idx] = none)
    (hf : (partyDates m ds).headD 0 < ds[idx])
    (hl : ds[idx] < (partyDates m ds).getLastD 0) :
    ∃ d1 d2 p n,
      d1 ∈ partyDates m ds ∧ d2 ∈ partyDates m ds
      ∧ d1 < ds[idx] ∧ ds[idx] < d2
      ∧ (∀ y ∈ partyDates m ds, y < ds[idx] → y ≤ d1)
      ∧ (∀ y ∈ partyDates m ds, ds[idx] < y → d2 ≤ y)
      ∧ m d1 = some p ∧ m d2 = some n
      ∧ alignPoint m ds ((partyDates m ds).headD 0)
          ((partyDates m ds).getLastD 0) idx ds[idx]
        = (ds[idx], some ((p + n) / 2)) := by
  have hne : partyDates m ds ≠ [] := by
    intro h
    rw [h] at hf hl
    simp only [List.headD_nil, List.getLastD_nil] at hf hl
    omega
  have hfpd : (partyDates m ds).headD 0 ∈ partyDates m ds := headD_mem _ hne
  have hlpd : (partyDates m ds).getLastD 0 ∈ partyDates m ds :=
    getLastD_mem _ 0 hne
  obtain ⟨hfds, hfhas⟩ := List.mem_filter.mp hfpd
  obtain ⟨hlds, hlhas⟩ := List.mem_filter.mp hlpd
  obtain ⟨d1, p, hprev, hd1val, hd1ds, hd1has, hd1lt, hd1ub⟩ :=
    findPrevVal_spec m ds hs idx hidx ((partyDates m ds).headD 0)
      hfds hfhas hf
  obtain ⟨d2, n, hnext, hd2val, hd2ds, hd2has, hd2gt, hd2lb⟩ :=
    findNextVal_spec m ds hs idx hidx ((partyDates m ds).getLastD 0)
      hlds hlhas hl
  refine ⟨d1, d2, p, n, List.mem_filter.mpr ⟨hd1ds, hd1has⟩,
    List.mem_filter.mpr ⟨hd2ds, hd2has⟩, hd1lt, hd2gt, ?_, ?_, hd1val,
    hd2val, ?_⟩
  · intro y hy hylt
    obtain ⟨hyds, hyhas⟩ := List.mem_filter.mp hy
    exact hd1ub y hyds hyhas hylt
  · intro y hy hygt
    obtain ⟨hyds, hyhas⟩ := List.mem_filter.mp hy
    exact hd2lb y hyds hyhas hygt
  · unfold alignPoint
    rw [hnone, if_neg (by omega : ¬(ds[idx] < (partyDates m ds).headD 0
      ∨ ds[idx] > (partyDates m ds).getLastD 0)), hprev, hnext]

/-- Membership in a party's axis dates is exactly membership in the dates of
its own smoothed input series. -/
lemma mem_partyDates_iff (sm : List (String × List (Nat × Rat)))
    (e : String × List (Nat × Rat)) (he : e ∈ sm) (x : Nat) :
    x ∈ partyDates (buildAvgMap e.2) (allDates sm) ↔ x ∈ e.2.map Prod.fst := by
  unfold partyDates
  constructor
  · intro hx
    obtain ⟨-, hhas⟩ := List.mem_filter.mp hx
    exact (mapHas_buildAvgMap x e.2).mp hhas
  · intro hx
    exact List.mem_filter.mpr ⟨mem_allDates sm e he x hx,
      (mapHas_buildAvgMap x e.2).mpr hx⟩

/-! ## Stacked-alignment claims -/

/-- Claim C3: for every map of smoothed input series, every emitted party of
the stacked aligned output has its bounds equal to the least and greatest
date of its own input series, its aligned series is the one emitted by
`stackedAligned`, and an aligned value is defined (non-`none`) at exactly the
shared-axis dates lying within those bounds — `none` strictly outside. -/
theorem claim_C3 : ∀ (smoothed : List (String × List (Nat × Rat)))
    (e : String × List (Nat × Rat)) (m : Nat → Option Rat)
    (ds pd : List Nat) (f l : Nat),
    e ∈ smoothed → m = buildAvgMap e.2 → ds = allDates smoothed →
    pd = partyDates m ds → pd ≠ [] → f = pd.headD 0 → l = pd.getLastD 0 →
    ((e.1, alignedDataFor m ds f l) ∈ stackedAligned smoothed)
    ∧ (f ∈ e.2.map Prod.fst ∧ ∀ x ∈ e.2.map Prod.fst, f ≤ x)
    ∧ (l ∈ e.2.map Prod.fst ∧ ∀ x ∈ e.2.map Prod.fst, x ≤ l)
    ∧ (∀ d v, (d, v) ∈ alignedDataFor m ds f l →
        ((v ≠ none) ↔ (f ≤ d ∧ d ≤ l))) := by
  intro smoothed e m ds pd f l he hm hds hpd hne hf hl
  subst hm hds hpd hf hl
  have hs : (allDates smoothed).Sorted (· < ·) := sorted_sortDedup _
  have hpdsorted : (partyDates (buildAvgMap e.2) (allDates smoothed)).Sorted
      (· < ·) := hs.filter _
  refine ⟨?_, ⟨?_, ?_⟩, ⟨?_, ?_⟩, aligned_core (buildAvgMap e.2)
    (allDates smoothed) hs hne⟩
  · unfold stackedAligned
    refine List.mem_filterMap.mpr ⟨e, he, ?_⟩
    unfold alignParty
    rw [if_neg (by
      intro hemp
      exact hne (List.isEmpty_iff.mp hemp))]
  · exact (mem_partyDates_iff smoothed e he _).mp (headD_mem _ hne)
  · intro x hx
    exact sorted_headD_le _ hpdsorted x
      ((mem_partyDates_iff smoothed e he x).mpr hx)
  · exact (mem_partyDates_iff smoothed e he _).mp (getLastD_mem _ 0 hne)
  · intro x hx
    exact sorted_le_getLastD _ 0 hpdsorted x
      ((mem_partyDates_iff smoothed e he x).mpr hx)

/-- Witness for C3: in the Scenario 2 input, party A's aligned series is a
member of the stacked output. -/
theorem claim_C3_witness :
    ("A", alignedDataFor
        (buildAvgMap [(20240101, 10), (20240131, 20)])
        (allDates [("A", [(20240101, 10), (20240131, 20)]),
          ("B", [(20240115, 5)])])
        ((partyDates (buildAvgMap [(20240101, 10), (20240131, 20)])
          (allDates [("A", [(20240101, 10), (20240131, 20)]),
            ("B", [(20240115, 5)])])).headD 0)
        ((partyDates (buildAvgMap [(20240101, 10), (20240131, 20)])
          (allDates [("A", [(20240101, 10), (20240131, 20)]),
            ("B", [(20240115, 5)])])).getLastD 0))
      ∈ stackedAligned [("A", [(20240101, 10), (20240131, 20)]),
          ("B", [(20240115, 5)])] :=
  (claim_C3 [("A", [(20240101, 10), (20240131, 20)]), ("B", [(20240115, 5)])]
    ("A", [(20240101, 10), (20240131, 20)]) _ _ _ _ _
    (by decide) rfl rfl rfl (by decide) rfl rfl).1

/-- Claim C4: at a shared-axis date where a party has no own smoothed value
but which lies strictly between its first and last observed dates, the
aligned value is the arithmetic mean `(prev + next) / 2` of the nearest
earlier and nearest later known values (linear in value, not time-weighted);
and on Scenario 2 the stacked output interpolates A to 15 at 2024-01-15
while B is undefined at 2024-01-01 and 2024-01-31. -/
theorem claim_C4 :
    (∀ (smoothed : List (String × List (Nat × Rat)))
        (e : String × List (Nat × Rat)) (m : Nat → Option Rat)
        (ds pd : List Nat) (idx d : Nat),
      e ∈ smoothed → m = buildAvgMap e.2 → ds = allDates smoothed →
      pd = partyDates m ds → idx < ds.length → ds.getD idx 0 = d →
      m d = none → pd.headD 0 < d → d < pd.getLastD 0 →
      (∀ x, x ∈ pd ↔ x ∈ e.2.map Prod.fst)
      ∧ ∃ d1 d2 p n,
          d1 ∈ pd ∧ d2 ∈ pd ∧ d1 < d ∧ d < d2
          ∧ (∀ y ∈ pd, y < d → y ≤ d1)
          ∧ (∀ y ∈ pd, d < y → d2 ≤ y)
          ∧ m d1 = some p ∧ m d2 = some n
          ∧ alignPoint m ds (pd.headD 0) (pd.getLastD 0) idx d
              = (d, some ((p + n) / 2)))
    ∧ stackedAligned [("A", [(20240101, 10), (20240131, 20)]),
        ("B", [(20240115, 5)])]
      = [("A", [(20240101, some 10), (20240115, some 15),
            (20240131, some 20)]),
         ("B", [(20240101, none), (20240115, some 5), (20240131, none)])] := by
  constructor
  · intro smoothed e m ds pd idx d he hm hds hpd hidx hd hnone hf hl
    subst hm hds hpd
    have hs : (allDates smoothed).Sorted (· < ·) := sorted_sortDedup _
    have hdget : (allDates smoothed)[idx] = d := by
      rw [← hd, List.getD_eq_getElem?_getD, List.getElem?_eq_getElem hidx]
      rfl
    refine ⟨mem_partyDates_iff smoothed e he, ?_⟩
    have hcore := interp_core (buildAvgMap e.2) (allDates smoothed) hs idx
      hidx (by rw [hdget]; exact hnone) (by rw [hdget]; exact hf)
      (by rw [hdget]; exact hl)
    rw [hdget] at hcore
    exact hcore
  · norm_num [stackedAligned, allDates, sortDedup, insertSorted, alignParty,
      partyDates, buildAvgMap, mapHas, alignedDataFor, alignPoint,
      findPrevVal, findNextVal, List.range_succ, List.filterMap, List.filter]

/-- Witness for C4: in Scenario 2, party A at axis index 1 (date 2024-01-15)
has no own value, lies strictly inside its bounds, and the nearest known
values 10 and 20 interpolate to their mean. -/
theorem claim_C4_witness :
    ∃ d1 d2 p n,
      d1 ∈ partyDates (buildAvgMap [(20240101, 10), (20240131, 20)])
        (allDates [("A", [(20240101, 10), (20240131, 20)]),
          ("B", [(20240115, 5)])])
      ∧ d2 ∈ partyDates (buildAvgMap [(20240101, 10), (20240131, 20)])
        (allDates [("A", [(20240101, 10), (20240131, 20)]),
          ("B", [(20240115, 5)])])
      ∧ d1 < 20240115 ∧ 20240115 < d2
      ∧ (∀ y ∈ partyDates (buildAvgMap [(20240101, 10), (20240131, 20)])
          (allDates [("A", [(20240101, 10), (20240131, 20)]),
            ("B", [(20240115, 5)])]), y < 20240115 → y ≤ d1)
      ∧ (∀ y ∈ partyDates (buildAvgMap [(20240101, 10), (20240131, 20)])
          (allDates [("A", [(20240101, 10), (20240131, 20)]),
            ("B", [(20240115, 5)])]), 20240115 < y → d2 ≤ y)
      ∧ buildAvgMap [(20240101, 10), (20240131, 20)] d1 = some p
      ∧ buildAvgMap [(20240101, 10), (20240131, 20)] d2 = some n
      ∧ alignPoint (buildAvgMap [(20240101, 10), (20240131, 20)])
          (allDates [("A", [(20240101, 10), (20240131, 20)]),
            ("B", [(20240115, 5)])])
          ((partyDates (buildAvgMap [(20240101, 10), (20240131, 20)])
            (allDates [("A", [(20240101, 10), (20240131, 20)]),
              ("B", [(20240115, 5)])])).headD 0)
          ((partyDates (buildAvgMap [(20240101, 10), (20240131, 20)])
            (allDates [("A", [(20240101, 10), (20240131, 20)]),
              ("B", [(20240115, 5)])])).getLastD 0)
          1 20240115
        = (20240115, some ((p + n) / 2)) :=
  (claim_C4.1 [("A", [(20240101, 10), (20240131, 20)]), ("B", [(20240115, 5)])]
    ("A", [(20240101, 10), (20240131, 20)]) _ _ _ 1 20240115
    (by decide) rfl rfl rfl (by decide) (by decide) (by decide) (by decide)
    (by decide)).2

/-- Every party whose smoothed series is nonempty, and only such parties,
contribute a layer to the stacked-aligned output (with the axis covering all
parties' dates). -/
lemma aligned_names (ds : List Nat) :
    ∀ (sm : List (String × List (Nat × Rat))),
      (∀ e ∈ sm, ∀ x ∈ e.2.map Prod.fst, x ∈ ds) →
      (sm.filterMap (alignParty ds)).map Prod.fst
        = (sm.filter (fun e => !e.2.isEmpty)).map Prod.fst := by
  intro sm
  induction sm with
  | nil => intro _; rfl
  | cons e t ih =>
    intro h
    rw [List.filterMap_cons, List.filter_cons]
    have hrec := ih (fun e2 he2m x hx => h e2 (List.mem_cons_of_mem e he2m) x hx)
    cases he2 : e.2 with
    | nil =>
      have hpd : partyDates (buildAvgMap e.2) ds = [] := by
        rw [he2]
        unfold partyDates
        apply List.filter_eq_nil_iff.mpr
        intro x _
        simp [buildAvgMap, mapHas]
      have hap : alignParty ds e = none := by
        unfold alignParty
        rw [hpd]
        rfl
      rw [hap]
      exact hrec
    | cons q rest =>
      have hq : q.1 ∈ e.2.map Prod.fst := by
        rw [he2]
        exact List.mem_map.mpr ⟨q, List.mem_cons_self q rest, rfl⟩
      have hqpd : q.1 ∈ partyDates (buildAvgMap e.2) ds :=
        List.mem_filter.mpr ⟨h e (List.mem_cons_self e t) q.1 hq,
          (mapHas_buildAvgMap q.1 e.2).mpr hq⟩
      have hpdne : (partyDates (buildAvgMap e.2) ds).isEmpty = false := by
        rcases hpde : partyDates (buildAvgMap e.2) ds with - | -
        · rw [hpde] at hqpd
          simp at hqpd
        · rfl
      have hap : alignParty ds e = some (e.1,
          alignedDataFor (buildAvgMap e.2) ds
            ((partyDates (buildAvgMap e.2) ds).headD 0)
            ((partyDates (buildAvgMap e.2) ds).getLastD 0)) := by
        unfold alignParty
        rw [hpdne]
        rfl
      rw [hap]
      exact congrArg (List.cons e.1) hrec

/-- Claim C9: a sub-series with fewer observations than the smoothing window
smooths to the empty series, and the layers emitted by the stacked pipeline
are exactly the parties whose filtered-and-smoothed series is nonempty — a
party with zero smoothed points is entirely absent, and no error arises
(the functions are total). -/
theorem claim_C9 :
    (∀ (data : List Obs) (w : Nat), data.length < w →
      calculateRollingAverage data w = [])
    ∧ ∀ (sbp : List (String × List Obs)) (cutoff : Option Nat),
        (stackedMode sbp cutoff).map Prod.fst
          = (sbp.filter (fun e =>
              !(calculateRollingAverage (filterByRange cutoff e.2) 5).isEmpty)
            ).map Prod.fst := by
  constructor
  · intro data w h
    unfold calculateRollingAverage
    rw [if_pos h]
  · intro sbp cutoff
    unfold stackedMode stackedAligned
    rw [aligned_names _ _ (fun e2 he2 x hx => mem_allDates _ e2 he2 x hx)]
    rw [List.filter_map, List.map_map]
    rfl

/-- Witness for C9: a two-point series with window 5 smooths to nothing. -/
theorem claim_C9_witness :
    calculateRollingAverage [⟨20240101, 10⟩, ⟨20240108, 12⟩] 5 = [] :=
  claim_C9.1 [⟨20240101, 10⟩, ⟨20240108, 12⟩] 5 (by decide)

end Tracker
